import Mathlib

/-!
Verification of the csvmonkey CSV tokenizer (`src/csvmonkey.hpp`).

The embedding works over byte sequences represented as `List Nat` (each
element a byte value 0..255).  The tokenizer `try_parse` is modelled as a
fuel-indexed state machine `tryParseAux` whose single step `tpStep` mirrors
the goto-driven loop of `CsvReader::try_parse`: states `cell_start`,
`in_unquoted_cell`, `in_quoted_cell`, `in_escape_or_end_of_cell`, the
`PREAMBLE()` bounds check (modelled by `List.head?` of the dropped window),
and the SSE4.2 `strcspn16` scanning primitive (modelled faithfully to
`_mm_cmpistri` with imm8 = 0: implicit-length operands, so bytes at or
after the first NUL in the 16-byte chunk are invalid and never match).

The fuel `2 * w.length + 4` strictly dominates the number of iterations of
the source loop (each iteration either advances the scan position or moves
from `cell_start` to `in_unquoted_cell`, which immediately advances or
terminates), so fuel exhaustion never occurs and `none` coincides with the
source's `return false`.
-/

namespace Csvmonkey

/-- Byte value of `'\n'`. -/
def lf : Nat := 10

/-- Byte value of `'\r'`. -/
def cr : Nat := 13

/-- Byte value of `'"'`. -/
def quoteB : Nat := 34

/-- Byte value of `','`. -/
def commaB : Nat := 44

/-- The stop predicate of `strcspn16(p, ',', '\r', '\n')` used by
`in_unquoted_cell`. -/
def unquotedStop (b : Nat) : Bool := b == commaB || b == cr || b == lf

/-- The stop predicate of `strcspn16(p, '"')` used by `in_quoted_cell`. -/
def quoteStop (b : Nat) : Bool := b == quoteB

/-- Index of the first byte satisfying `stop`, if any. -/
def firstIdx (stop : Nat → Bool) : List Nat → Option Nat
  | [] => none
  | b :: bs => if stop b then some 0 else (firstIdx stop bs).map (· + 1)

/-- The valid bytes of one 16-byte `_mm_cmpistri` chunk: at most `n` leading
bytes, cut off at the first NUL (implicit-length string semantics). -/
def validTake : Nat → List Nat → List Nat
  | 0, _ => []
  | _ + 1, [] => []
  | n + 1, b :: bs => if b = 0 then [] else b :: validTake n bs

/-- `strcspn16` (`_mm_cmpistri` with imm8 = 0): index of the first byte of
the 16-byte chunk at `buf` matching the stop set, or 16 when no valid byte
matches.  Bytes at or after the first NUL of the chunk are invalid. -/
def strcspn16 (stop : Nat → Bool) (buf : List Nat) : Nat :=
  (firstIdx stop (validTake 16 buf)).getD 16

/-- The four control states of `CsvReader::try_parse`; the payload of the
last three is the C local `cell_start` (as an offset into the window). -/
inductive PState where
  | cellStart : PState
  | inUnquoted : Nat → PState
  | inQuoted : Nat → PState
  | escapeOrEnd : Nat → PState

/-- The byte `*p` of window `w` at offset `p` (meaningful when
`p < w.length`). -/
def wbyte (w : List Nat) (p : Nat) : Nat := (w.drop p).headD 0

/-- One iteration of the `try_parse` loop.  `w` is the window
`[stream.buf(), endp_)`, `p` the local scan offset, `acc` the cells written
into `row_.cells` so far (as `(offset, size)` pairs).  The leading test is
`PREAMBLE()` (`if (p >= endp_) break`, i.e. `return false`, modelled as
`none`).  The source has no capacity check on `row_.cells` (256 slots),
hence `acc` grows unboundedly, mirroring the unchecked writes. -/
def tpStep (w : List Nat)
    (next : PState → Nat → List (Nat × Nat) → Option (List (Nat × Nat) × Nat))
    (st : PState) (p : Nat) (acc : List (Nat × Nat)) :
    Option (List (Nat × Nat) × Nat) :=
  if w.length ≤ p then none
  else
    let b := wbyte w p
    match st with
    | .cellStart =>
        if b = cr then next .cellStart (p + 1) acc
        else if b = quoteB then next (.inQuoted (p + 1)) (p + 1) acc
        else next (.inUnquoted p) p acc
    | .inUnquoted cs =>
        let rc := strcspn16 unquotedStop (w.drop p)
        if rc ≠ 0 then next (.inUnquoted cs) (p + rc) acc
        else if b = lf then some (acc ++ [(cs, p - cs)], p + 1)
        else next .cellStart (p + 1) (acc ++ [(cs, p - cs)])
    | .inQuoted cs =>
        let rc := strcspn16 quoteStop (w.drop p)
        if rc = 16 then next (.inQuoted cs) (p + 16) acc
        else next (.escapeOrEnd cs) (p + rc + 1) acc
    | .escapeOrEnd cs =>
        if b = commaB then next .cellStart (p + 1) (acc ++ [(cs, p - cs - 1)])
        else if b = lf then some (acc ++ [(cs, p - cs - 1)], p + 1)
        else next (.inQuoted cs) (p + 1) acc

/-- Fuel-indexed iteration of `tpStep`. -/
def tryParseAux (w : List Nat) :
    Nat → PState → Nat → List (Nat × Nat) → Option (List (Nat × Nat) × Nat)
  | 0 => fun _ _ _ => none
  | f + 1 => tpStep w (tryParseAux w f)

/-- `CsvReader::try_parse` on window `w` starting at committed offset `p`:
`some (cells, next)` when a row parses (the source's `return true`, with
`p_ = p + 1` modelled by `next`), `none` when the attempt aborts at the
window end. -/
def try_parse (w : List Nat) (p : Nat) : Option (List (Nat × Nat) × Nat) :=
  tryParseAux w (2 * w.length + 4) .cellStart p []

/-- The bytes referenced by a cell `(offset, size)` of window `w`
(`CsvCell::ptr`/`CsvCell::size` dereferenced). -/
def cellContent (w : List Nat) (c : Nat × Nat) : List Nat :=
  (w.drop c.1).take c.2

/-- `BufferedStreamCursor` state: `buf` is the current window
(`buf_[0 .. size_)`), `pending` the bytes the descriptor has not yet
delivered, `cap` the fixed backing-vector capacity (`buf_.size()`,
131072 at construction). -/
structure BufferedCursor where
  buf : List Nat
  pending : List Nat
  cap : Nat

/-- `BufferedStreamCursor::more(shift)`: keep the last `shift` bytes of the
window at the front (`memcpy`), then one `readmore()` appending up to
`cap - shift` pending bytes; returns `size_` as a boolean (a successful
read of 0 bytes at end of stream yields `false` iff the window is empty). -/
def BufferedCursor.more (c : BufferedCursor) (shift : Nat) :
    Bool × BufferedCursor :=
  let kept := c.buf.drop (c.buf.length - shift)
  let n := c.cap - shift
  let got := c.pending.take n
  let buf2 := kept ++ got
  (buf2.length != 0, { buf := buf2, pending := c.pending.drop n, cap := c.cap })

/-- `CsvReader` state over a `BufferedStreamCursor`: `p` is the committed
offset `p_ - stream_.buf()` (the window end `endp_` is `cur.buf.length`),
`row` the cells of the last successfully parsed row (`row_`). -/
structure Reader where
  cur : BufferedCursor
  p : Nat
  row : List (Nat × Nat)

/-- Construct a `CsvReader` on a cursor whose window already holds `w` and
whose descriptor still has `pending` bytes:
`p_ = stream.buf()`, `endp_ = stream.buf() + stream.size()`. -/
def mkReader (w pending : List Nat) : Reader :=
  ⟨⟨w, pending, 131072⟩, 0, []⟩

/-- One `try_parse()` call including its effect on the reader state: on
success `p_` moves past the row's LF and `row_` holds the cells; on failure
`p_` is untouched (the source only assigns `p_` at the two `return true`
sites). -/
def tryParseStep (r : Reader) : Bool × Reader :=
  match try_parse r.cur.buf r.p with
  | some (cells, next) => (true, { r with p := next, row := cells })
  | none => (false, r)

/-- The shift computed by `CsvReader::refill`:
`(p_ < endp_) ? (stream_.size() - (endp_ - p_)) : 0`.
Note `stream_.size() = endp_ - buf`, so this equals the *consumed prefix
length* `p_ - buf`, not the unconsumed tail `endp_ - p_`. -/
def refillShift (r : Reader) : Nat :=
  let sz := r.cur.buf.length
  if r.p < sz then sz - (sz - r.p) else 0

/-- `CsvReader::refill`: `stream_.more(shift)` then reset
`p_ = stream_.buf()`, `endp_ = p_ + stream_.size()`. -/
def refill (r : Reader) : Bool × Reader :=
  let rc := r.cur.more (refillShift r)
  (rc.1, { cur := rc.2, p := 0, row := r.row })

/-- `CsvReader::read_row`: one parse attempt, then on failure one refill
and exactly one retry.  The boolean result is all the caller gets: `false`
stands for both end-of-stream and a row that still cannot be completed. -/
def read_row (r : Reader) : Bool × Reader :=
  match tryParseStep r with
  | (true, r2) => (true, r2)
  | (false, _) =>
      let rc := refill r
      if rc.1 then tryParseStep rc.2 else (false, rc.2)

/-- The byte contents of the cells of the current row, read through the
current window (zero-copy `CsvCell` views). -/
def rowContents (r : Reader) : List (List Nat) :=
  r.row.map (cellContent r.cur.buf)

/-- Membership table built by the fallback `StringSpanner` constructor with
`c = true`: `memset(charset_, 0)`, mark each charset byte, then force
`charset_[0] = 0`. -/
def fallbackMember (charset : List Nat) (b : Nat) : Bool :=
  if b = 0 then false else charset.contains b

/-- Result of the fallback `StringSpanner::operator()`: the loop scans 4
bytes per iteration and returns the offset of the first byte whose table
entry is 0, i.e. the first byte *not* in the member set; it never returns
the chunk width when every scanned byte is a member (the source's own TODO:
"ensure this returns +16 on not found"), so on a buffer whose bytes are all
members it runs past any bound (`none` here). -/
def stringSpannerScan (charset : List Nat) (buf : List Nat) : Option Nat :=
  firstIdx (fun b => !(fallbackMember charset b)) buf

/-- C `strncmp(a, b, n)` on NUL-terminated byte strings, the lists standing
for the bytes before the terminator (so `[]` reads as the NUL terminator).
Comparison stops at the byte budget `n`, at the first differing byte, or at
a NUL in both strings.  In `CsvCell::equals` the first argument is the
cell's `size` bytes at `ptr` with `n = size`, so the first-list-exhausted
cases are never reached before `n` runs out. -/
def strncmpZ : List Nat → List Nat → Nat → Int
  | _, _, 0 => 0
  | [], [], _ + 1 => 0
  | [], b :: _, _ + 1 => 0 - (b : Int)
  | a :: _, [], _ + 1 => (a : Int) - 0
  | a :: as, b :: bs, n + 1 =>
      if a = b then (if a = 0 then 0 else strncmpZ as bs n)
      else (a : Int) - (b : Int)

/-- `CsvCell::equals(str)`: `0 == ::strncmp(ptr, str, size)`, where `cell`
is the cell's `size` bytes and `arg` the argument's bytes before its NUL
terminator. -/
def cellEquals (cell : List Nat) (arg : List Nat) : Bool :=
  strncmpZ cell arg cell.length == 0

/-- Spec-side join: the fields of a row rejoined with a comma between
consecutive fields. -/
def joinComma : List (List Nat) → List Nat
  | [] => []
  | [fl] => fl
  | fl :: fl2 :: rest => fl ++ commaB :: joinComma (fl2 :: rest)

/-- Spec-side row image: comma-joined fields terminated by LF. -/
def rowOf (fields : List (List Nat)) : List Nat := joinComma fields ++ [lf]

/-- The cells the tokenizer is expected to produce for unquoted `fields`
laid out starting at offset `p`. -/
def cellsOf (p : Nat) : List (List Nat) → List (Nat × Nat)
  | [] => []
  | fl :: rest => (p, fl.length) :: cellsOf (p + fl.length + 1) rest

/-- Fuel consumed by a successful unquoted-row parse: per field, one
`cell_start` iteration, the `in_unquoted_cell` scans (at most one per byte),
and the closing iteration. -/
def fuelF : List (List Nat) → Nat
  | [] => 0
  | fl :: rest => fl.length + 2 + fuelF rest

theorem tryParseAux_succ (w : List Nat) (f : Nat) (st : PState) (p : Nat)
    (acc : List (Nat × Nat)) :
    tryParseAux w (f + 1) st p acc = tpStep w (tryParseAux w f) st p acc := rfl

theorem tpStep_mono {w : List Nat}
    {g g2 : PState → Nat → List (Nat × Nat) → Option (List (Nat × Nat) × Nat)}
    (h : ∀ st p acc r, g st p acc = some r → g2 st p acc = some r)
    {st : PState} {p : Nat} {acc : List (Nat × Nat)}
    {r : List (Nat × Nat) × Nat}
    (hs : tpStep w g st p acc = some r) : tpStep w g2 st p acc = some r := by
  unfold tpStep at hs ⊢
  by_cases hp : w.length ≤ p
  · simp [hp] at hs
  · simp only [hp, if_false] at hs ⊢
    cases st <;> dsimp only at hs ⊢ <;> split_ifs at hs ⊢ <;>
      first
      | exact hs
      | exact h _ _ _ _ hs

theorem tryParseAux_mono {w : List Nat} {f : Nat} :
    ∀ {st p acc r}, tryParseAux w f st p acc = some r →
      tryParseAux w (f + 1) st p acc = some r := by
  induction f with
  | zero => intro st p acc r h; simp [tryParseAux] at h
  | succ f ih =>
    intro st p acc r h
    rw [tryParseAux_succ] at h ⊢
    exact tpStep_mono (fun _ _ _ _ hh => ih hh) h

theorem tryParseAux_mono_le {w : List Nat} {f f2 : Nat} (hle : f ≤ f2) :
    ∀ {st p acc r}, tryParseAux w f st p acc = some r →
      tryParseAux w f2 st p acc = some r := by
  obtain ⟨k, rfl⟩ := Nat.exists_eq_add_of_le hle
  clear hle
  induction k with
  | zero => intro _ _ _ _ h; exact h
  | succ k ih =>
    intro st p acc r h
    have := ih h
    rw [show f + (k + 1) = (f + k) + 1 by omega]
    exact tryParseAux_mono this

theorem firstIdx_validTake (stop : Nat → Bool) (s : Nat) (t : List Nat) :
    ∀ (fld : List Nat),
      (∀ b ∈ fld, stop b = false ∧ b ≠ 0) →
      stop s = true → s ≠ 0 →
      ∀ n, (firstIdx stop (validTake n (fld ++ s :: t))).getD n
            = min fld.length n := by
  intro fld
  induction fld with
  | nil =>
    intro _ hs hs0 n
    cases n with
    | zero => simp [validTake, firstIdx]
    | succ k => simp [validTake, hs0, firstIdx, hs]
  | cons b fl ih =>
    intro hgood hs hs0 n
    obtain ⟨hb, hb0⟩ := hgood b (by simp)
    cases n with
    | zero => simp [validTake, firstIdx]
    | succ k =>
      have ih2 := ih (fun x hx => hgood x (by simp [hx])) hs hs0 k
      simp only [List.cons_append, validTake, hb0, if_false, firstIdx, hb,
        List.length_cons]
      cases hfi : firstIdx stop (validTake k (fl ++ s :: t)) with
      | none => simp [hfi] at ih2 ⊢; omega
      | some i => simp [hfi] at ih2 ⊢; omega

theorem strcspn16_append (stop : Nat → Bool) {fld : List Nat} {s : Nat}
    {t : List Nat} (hgood : ∀ b ∈ fld, stop b = false ∧ b ≠ 0)
    (hs : stop s = true) (hs0 : s ≠ 0) :
    strcspn16 stop (fld ++ s :: t) = min fld.length 16 :=
  firstIdx_validTake stop s t fld hgood hs hs0 16

theorem lt_length_of_drop_ne_nil {w : List Nat} {p : Nat}
    (h : w.drop p ≠ []) : p < w.length := by
  by_contra hh
  push_neg at hh
  exact h (List.drop_eq_nil_of_le hh)

theorem drop_add (w : List Nat) (p k : Nat) :
    w.drop (p + k) = (w.drop p).drop k := by
  rw [List.drop_drop, Nat.add_comm p k]

theorem tpStep_cellStart (w : List Nat)
    (next : PState → Nat → List (Nat × Nat) → Option (List (Nat × Nat) × Nat))
    (p : Nat) (acc : List (Nat × Nat)) (hp : ¬ w.length ≤ p) :
    tpStep w next .cellStart p acc =
      (if wbyte w p = cr then next .cellStart (p + 1) acc
       else if wbyte w p = quoteB then next (.inQuoted (p + 1)) (p + 1) acc
       else next (.inUnquoted p) p acc) := by
  unfold tpStep
  rw [if_neg hp]

theorem tpStep_inUnquoted (w : List Nat)
    (next : PState → Nat → List (Nat × Nat) → Option (List (Nat × Nat) × Nat))
    (cs p : Nat) (acc : List (Nat × Nat)) (hp : ¬ w.length ≤ p) :
    tpStep w next (.inUnquoted cs) p acc =
      (if strcspn16 unquotedStop (w.drop p) ≠ 0 then
        next (.inUnquoted cs) (p + strcspn16 unquotedStop (w.drop p)) acc
       else if wbyte w p = lf then some (acc ++ [(cs, p - cs)], p + 1)
       else next .cellStart (p + 1) (acc ++ [(cs, p - cs)])) := by
  unfold tpStep
  rw [if_neg hp]

theorem unquoted_run : ∀ (d : Nat) (fld : List Nat) (s : Nat) (t w : List Nat)
    (p cs : Nat) (acc : List (Nat × Nat)) (f : Nat) (r : List (Nat × Nat) × Nat),
    fld.length = d →
    (∀ b ∈ fld, unquotedStop b = false ∧ b ≠ 0) →
    unquotedStop s = true → s ≠ 0 →
    w.drop p = fld ++ s :: t →
    tryParseAux w f (.inUnquoted cs) (p + d) acc = some r →
    tryParseAux w (f + d) (.inUnquoted cs) p acc = some r := by
  intro d
  induction d using Nat.strong_induction_on with
  | _ d ih =>
  intro fld s t w p cs acc f r hlen hgood hs hs0 hw hcont
  rcases Nat.eq_zero_or_pos d with hz | hpos
  · subst hz
    simpa using hcont
  · have hp : p < w.length := lt_length_of_drop_ne_nil (by rw [hw]; cases fld <;> simp)
    have hscan : strcspn16 unquotedStop (w.drop p) = min d 16 := by
      rw [hw, strcspn16_append unquotedStop hgood hs hs0, hlen]
    obtain ⟨f1, hf1⟩ : ∃ f1, f + d = f1 + 1 := ⟨f + d - 1, by omega⟩
    rw [hf1, tryParseAux_succ, tpStep_inUnquoted w _ cs p acc (by omega), hscan,
      if_pos (by omega : min d 16 ≠ 0)]
    by_cases h16 : d < 16
    · rw [show min d 16 = d by omega]
      exact tryParseAux_mono_le (by omega : f ≤ f1) hcont
    · rw [show min d 16 = 16 by omega]
      have hw16 : w.drop (p + 16) = fld.drop 16 ++ s :: t := by
        rw [drop_add, hw, List.drop_append_eq_append_drop,
          show 16 - fld.length = 0 by omega, List.drop_zero]
      have hlen16 : (fld.drop 16).length = d - 16 := by
        simp [hlen]
      have hgood16 : ∀ b ∈ fld.drop 16, unquotedStop b = false ∧ b ≠ 0 :=
        fun b hb => hgood b (List.mem_of_mem_drop hb)
      have hcont16 : tryParseAux w f (.inUnquoted cs) ((p + 16) + (d - 16)) acc
          = some r := by
        rw [show (p + 16) + (d - 16) = p + d by omega]
        exact hcont
      have := ih (d - 16) (by omega) (fld.drop 16) s t w (p + 16) cs acc f r
        hlen16 hgood16 hs hs0 hw16 hcont16
      exact tryParseAux_mono_le (by omega : f + (d - 16) ≤ f1) this

theorem emit_at {w : List Nat} {q s : Nat} {t : List Nat}
    (hw : w.drop q = s :: t) (hs : unquotedStop s = true) (hs0 : s ≠ 0)
    (cs : Nat) (acc : List (Nat × Nat)) (f : Nat) :
    tryParseAux w (f + 1) (.inUnquoted cs) q acc =
      if s = lf then some (acc ++ [(cs, q - cs)], q + 1)
      else tryParseAux w f .cellStart (q + 1) (acc ++ [(cs, q - cs)]) := by
  have hq : q < w.length := lt_length_of_drop_ne_nil (by rw [hw]; simp)
  have hscan : strcspn16 unquotedStop (w.drop q) = 0 := by
    rw [hw]
    have := @strcspn16_append unquotedStop [] s t (by simp) hs hs0
    simpa using this
  have hb : wbyte w q = s := by simp [wbyte, hw]
  rw [tryParseAux_succ, tpStep_inUnquoted w _ cs q acc (by omega), hscan, hb,
    if_neg (by simp : ¬ (0 : Nat) ≠ 0)]

theorem cellstart_to_emit {w : List Nat} {p : Nat} {fld : List Nat} {s : Nat}
    {t : List Nat} {acc : List (Nat × Nat)} {f : Nat} {r : List (Nat × Nat) × Nat}
    (hgood : ∀ b ∈ fld, b ≠ 0 ∧ b ≠ lf ∧ b ≠ cr ∧ b ≠ quoteB ∧ b ≠ commaB)
    (hslf : s = lf ∨ s = commaB)
    (hw : w.drop p = fld ++ s :: t)
    (hcont : tryParseAux w (f + 1) (.inUnquoted p) (p + fld.length) acc = some r) :
    tryParseAux w (f + (fld.length + 2)) .cellStart p acc = some r := by
  have hp : p < w.length := lt_length_of_drop_ne_nil (by rw [hw]; cases fld <;> simp)
  have hgoodU : ∀ b ∈ fld, unquotedStop b = false ∧ b ≠ 0 := by
    intro b hb
    obtain ⟨h0, h1, h2, h3, h4⟩ := hgood b hb
    exact ⟨by simp [unquotedStop, h1, h2, h4], h0⟩
  have hs : unquotedStop s = true := by
    rcases hslf with rfl | rfl <;> simp [unquotedStop]
  have hs0 : s ≠ 0 := by
    rcases hslf with rfl | rfl <;> simp [lf, commaB]
  have hb0 : wbyte w p ≠ cr ∧ wbyte w p ≠ quoteB := by
    cases fld with
    | nil =>
      have hbs : wbyte w p = s := by simp [wbyte, hw]
      rw [hbs]
      rcases hslf with rfl | rfl <;> simp [lf, cr, commaB, quoteB]
    | cons b fl =>
      have hbb : wbyte w p = b := by simp [wbyte, hw]
      obtain ⟨-, -, h2, h3, -⟩ := hgood b (by simp)
      rw [hbb]
      exact ⟨h2, h3⟩
  rw [show f + (fld.length + 2) = (f + fld.length + 1) + 1 by omega,
    tryParseAux_succ, tpStep_cellStart w _ p acc (by omega),
    if_neg hb0.1, if_neg hb0.2]
  rw [show f + fld.length + 1 = (f + 1) + fld.length by omega]
  exact unquoted_run fld.length fld s t w p p acc (f + 1) r rfl hgoodU hs hs0
    hw hcont

theorem row_run : ∀ (fields : List (List Nat)) (w : List Nat) (p : Nat)
    (acc : List (Nat × Nat)) (f : Nat),
    fields ≠ [] →
    (∀ fl ∈ fields, ∀ b ∈ fl,
      b ≠ 0 ∧ b ≠ lf ∧ b ≠ cr ∧ b ≠ quoteB ∧ b ≠ commaB) →
    w.drop p = rowOf fields →
    tryParseAux w (f + fuelF fields) .cellStart p acc
      = some (acc ++ cellsOf p fields, p + (rowOf fields).length) := by
  intro fields
  induction fields with
  | nil => intro _ _ _ _ h; exact absurd rfl h
  | cons fld rest ih =>
    intro w p acc f _ hgood hw
    have hfldgood := hgood fld (by simp)
    cases rest with
    | nil =>
      have hw2 : w.drop p = fld ++ lf :: [] := by
        simpa [rowOf, joinComma] using hw
      have hwq : w.drop (p + fld.length) = lf :: [] := by
        rw [drop_add, hw2, List.drop_left]
      have hemit := emit_at hwq (by simp [unquotedStop]) (by simp [lf]) p acc f
      rw [if_pos rfl, show p + fld.length - p = fld.length by omega] at hemit
      have hmain := cellstart_to_emit hfldgood (Or.inl rfl) hw2 hemit
      have hrl : (rowOf [fld]).length = fld.length + 1 := by
        simp [rowOf, joinComma]
      rw [show f + fuelF [fld] = f + (fld.length + 2) by simp [fuelF], hmain,
        hrl]
      simp [cellsOf]
      omega
    | cons fl2 rest2 =>
      have hw2 : w.drop p = fld ++ commaB :: rowOf (fl2 :: rest2) := by
        rw [hw]
        simp [rowOf, joinComma, List.append_assoc]
      have hwq : w.drop (p + fld.length) = commaB :: rowOf (fl2 :: rest2) := by
        rw [drop_add, hw2, List.drop_left]
      have hwq1 : w.drop (p + fld.length + 1) = rowOf (fl2 :: rest2) := by
        rw [drop_add w (p + fld.length) 1, hwq]
        rfl
      have hIH := ih w (p + fld.length + 1) (acc ++ [(p, fld.length)]) f
        (by simp) (fun fl hfl => hgood fl (by simp [hfl])) hwq1
      have hemit := emit_at hwq (by simp [unquotedStop]) (by simp [commaB]) p acc
        (f + fuelF (fl2 :: rest2))
      rw [if_neg (by simp [commaB, lf]),
        show p + fld.length - p = fld.length by omega] at hemit
      have hcont : tryParseAux w ((f + fuelF (fl2 :: rest2)) + 1)
          (.inUnquoted p) (p + fld.length) acc
          = some ((acc ++ [(p, fld.length)]) ++ cellsOf (p + fld.length + 1)
              (fl2 :: rest2),
            (p + fld.length + 1) + (rowOf (fl2 :: rest2)).length) := by
        rw [hemit]
        exact hIH
      have hmain := cellstart_to_emit hfldgood (Or.inr rfl) hw2 hcont
      have hcells : acc ++ cellsOf p (fld :: fl2 :: rest2)
          = (acc ++ [(p, fld.length)]) ++ cellsOf (p + fld.length + 1)
              (fl2 :: rest2) := by
        simp [cellsOf]
      have hlen : p + (rowOf (fld :: fl2 :: rest2)).length
          = (p + fld.length + 1) + (rowOf (fl2 :: rest2)).length := by
        simp [rowOf, joinComma]
        omega
      rw [hcells, hlen,
        show f + fuelF (fld :: fl2 :: rest2)
          = (f + fuelF (fl2 :: rest2)) + (fld.length + 2) by simp [fuelF]; omega]
      exact hmain

theorem fuelF_le_rowOf : ∀ fields : List (List Nat),
    fields ≠ [] → fuelF fields ≤ 2 * (rowOf fields).length := by
  intro fields
  induction fields with
  | nil => intro h; exact absurd rfl h
  | cons fld rest ih =>
    intro _
    cases rest with
    | nil => simp [fuelF, rowOf, joinComma]; omega
    | cons fl2 rest2 =>
      have := ih (by simp)
      simp [fuelF, rowOf, joinComma] at this ⊢
      omega

theorem cellsOf_length : ∀ (fields : List (List Nat)) (p : Nat),
    (cellsOf p fields).length = fields.length := by
  intro fields
  induction fields with
  | nil => intro p; rfl
  | cons fld rest ih => intro p; simp [cellsOf, ih]

theorem cellsOf_content : ∀ (fields : List (List Nat)) (w : List Nat) (p : Nat),
    fields ≠ [] →
    w.drop p = rowOf fields →
    (cellsOf p fields).map (cellContent w) = fields := by
  intro fields
  induction fields with
  | nil => intro _ _ h; exact absurd rfl h
  | cons fld rest ih =>
    intro w p _ hw
    cases rest with
    | nil =>
      have hw2 : w.drop p = fld ++ lf :: [] := by
        simpa [rowOf, joinComma] using hw
      simp [cellsOf, cellContent, hw2, List.take_left]
    | cons fl2 rest2 =>
      have hw2 : w.drop p = fld ++ commaB :: rowOf (fl2 :: rest2) := by
        rw [hw]
        simp [rowOf, joinComma, List.append_assoc]
      have hwq1 : w.drop (p + fld.length + 1) = rowOf (fl2 :: rest2) := by
        rw [drop_add w (p + fld.length) 1, drop_add, hw2, List.drop_left]
        rfl
      have hrest := ih w (p + fld.length + 1) (by simp) hwq1
      rw [cellsOf, List.map_cons, hrest]
      simp [cellContent, hw2, List.take_left]

theorem tpStep_escape (w : List Nat)
    (next : PState → Nat → List (Nat × Nat) → Option (List (Nat × Nat) × Nat))
    (cs p : Nat) (acc : List (Nat × Nat)) (hp : ¬ w.length ≤ p) :
    tpStep w next (.escapeOrEnd cs) p acc =
      (if wbyte w p = commaB then
        next .cellStart (p + 1) (acc ++ [(cs, p - cs - 1)])
       else if wbyte w p = lf then some (acc ++ [(cs, p - cs - 1)], p + 1)
       else next (.inQuoted cs) (p + 1) acc) := by
  unfold tpStep
  rw [if_neg hp]

theorem strncmpZ_extends : ∀ (cell t : List Nat),
    (∀ b ∈ cell, b ≠ 0) →
    strncmpZ cell (cell ++ t) cell.length = 0 := by
  intro cell
  induction cell with
  | nil => intro t _; simp [strncmpZ]
  | cons a as ih =>
    intro t h
    have ha0 : a ≠ 0 := h a (by simp)
    show strncmpZ (a :: as) ((a :: as) ++ t) (a :: as).length = 0
    simp only [List.cons_append, List.length_cons, strncmpZ, if_pos rfl,
      if_neg ha0]
    exact ih t (fun b hb => h b (by simp [hb]))

theorem strncmpZ_short : ∀ (arg cell : List Nat),
    (∀ b ∈ cell, b ≠ 0) →
    arg.length < cell.length →
    strncmpZ cell arg cell.length ≠ 0 := by
  intro arg
  induction arg with
  | nil =>
    intro cell h hlen
    cases cell with
    | nil => simp at hlen
    | cons c cs =>
      have hc : c ≠ 0 := h c (by simp)
      simp only [List.length_cons, strncmpZ]
      intro heq
      exact hc (by exact_mod_cast (by simpa using heq : (c : Int) = 0))
  | cons b bs ih =>
    intro cell h hlen
    cases cell with
    | nil => simp at hlen
    | cons c cs =>
      have hc : c ≠ 0 := h c (by simp)
      by_cases hcb : c = b
      · subst hcb
        simp only [List.length_cons, strncmpZ, if_pos rfl, if_neg hc]
        exact ih cs (fun x hx => h x (by simp [hx])) (by simpa using hlen)
      · simp only [List.length_cons, strncmpZ, if_neg hcb]
        intro heq
        exact hcb (by exact_mod_cast sub_eq_zero.mp heq)

theorem tryParseAux_next_le {w : List Nat} : ∀ {f : Nat} {st : PState}
    {p : Nat} {acc cells : List (Nat × Nat)} {next : Nat},
    tryParseAux w f st p acc = some (cells, next) → next ≤ w.length := by
  intro f
  induction f with
  | zero => intro st p acc cells next h; simp [tryParseAux] at h
  | succ f ih =>
    intro st p acc cells next h
    rw [tryParseAux_succ] at h
    unfold tpStep at h
    by_cases hp : w.length ≤ p
    · simp [hp] at h
    · simp only [hp, if_false] at h
      cases st <;> dsimp only at h <;> split_ifs at h <;>
        first
        | exact ih h
        | (simp only [Option.some.injEq, Prod.mk.injEq] at h
           obtain ⟨-, h2⟩ := h
           omega)

theorem joinComma_empties : ∀ n : Nat,
    joinComma (List.replicate (n + 1) []) = List.replicate n commaB := by
  intro n
  induction n with
  | zero => rfl
  | succ k ih =>
    rw [List.replicate_succ, List.replicate_succ ([] : List Nat) k,
      joinComma, ← List.replicate_succ ([] : List Nat) k, ih,
      List.replicate_succ]
    rfl

theorem try_parse_rowOf (fields : List (List Nat)) (hne : fields ≠ [])
    (hgood : ∀ fl ∈ fields, ∀ b ∈ fl,
      b ≠ 0 ∧ b ≠ lf ∧ b ≠ cr ∧ b ≠ quoteB ∧ b ≠ commaB) :
    try_parse (rowOf fields) 0
      = some (cellsOf 0 fields, (rowOf fields).length) := by
  unfold try_parse
  have hF := fuelF_le_rowOf fields hne
  obtain ⟨f, hf⟩ : ∃ f, f + fuelF fields = 2 * (rowOf fields).length + 4 :=
    ⟨2 * (rowOf fields).length + 4 - fuelF fields, by omega⟩
  have := row_run fields (rowOf fields) 0 [] f hne hgood (by simp)
  rw [hf] at this
  simpa using this

/-- C1: splitting the same input at a byte offset inside a field and
completing the row through one refill cycle is claimed to yield the same
Cells as feeding the whole input at once.  The code violates this: for
`abc,def\n` delivered whole, `read_row` yields Cells `abc`,`def`; delivered
as `abc,d` + `ef\n`, `refill`'s shift (`stream_.size() - (endp_ - p_)`,
i.e. the consumed prefix, not the unconsumed tail) retains nothing, the
partial row `abc,d` is discarded, and `read_row` yields the single Cell
`ef`. -/
theorem c1_split_divergence :
    (read_row (mkReader [97, 98, 99, 44, 100, 101, 102, 10] [])).1 = true ∧
    (read_row (mkReader [97, 98, 99, 44, 100] [101, 102, 10])).1 = true ∧
    rowContents (read_row (mkReader [97, 98, 99, 44, 100, 101, 102, 10] [])).2
      = [[97, 98, 99], [100, 101, 102]] ∧
    rowContents (read_row (mkReader [97, 98, 99, 44, 100] [101, 102, 10])).2
      = [[101, 102]] ∧
    rowContents (read_row (mkReader [97, 98, 99, 44, 100] [101, 102, 10])).2
      ≠ rowContents
          (read_row (mkReader [97, 98, 99, 44, 100, 101, 102, 10] [])).2 := by
  decide

/-- C2: on a failed parse attempt the claim says `read_row` refills with
`shift = end − committed` so the unconsumed tail is retained.  The code's
`refill` instead computes `shift = stream_.size() - (endp_ - p_)`
(= `committed − base`, the consumed prefix): on the window `abc,d` with
committed position 0 the unconsumed tail is 5 bytes but the computed shift
is 0, and after `more(0)` the new window is just the freshly read bytes —
the tail is gone. -/
theorem c2_shift_divergence :
    (tryParseStep (mkReader [97, 98, 99, 44, 100] [101, 102, 10])).1 = false ∧
    refillShift (mkReader [97, 98, 99, 44, 100] [101, 102, 10]) = 0 ∧
    (mkReader [97, 98, 99, 44, 100] [101, 102, 10]).cur.buf.length
      - (mkReader [97, 98, 99, 44, 100] [101, 102, 10]).p = 5 ∧
    (0 : Nat) ≠ 5 ∧
    (refill (mkReader [97, 98, 99, 44, 100] [101, 102, 10])).2.cur.buf
      = [101, 102, 10] := by
  decide

/-- C3 counterexample: the claim quantifies over rows of comma-separated
fields free of quote, CR and LF bytes, but not free of NUL.  For the
2-field row `a<NUL>,bbbbbbbbbbbbb\n` the `_mm_cmpistri`-based scanner
treats the NUL as an implicit string terminator, never sees the comma,
jumps 16 bytes, and a *successful* `read_row` returns a single 16-byte
Cell instead of the claimed 2 Cells. -/
theorem c3_counterexample :
    (try_parse (rowOf [[97, 0], List.replicate 13 98]) 0).map
        (fun r => r.1.length) = some 1 ∧
    [[97, 0], List.replicate 13 98].length = 2 ∧
    (1 : Nat) ≠ 2 := by
  decide

/-- C3 (amended): for every nonempty list of fields whose bytes are none of
NUL, LF, CR, quote or comma (the claim's conditions plus the NUL exclusion
the counterexample forces), `read_row` on the LF-terminated comma-joined row
succeeds on the first attempt, produces exactly one Cell per field, the
Cells' bytes are exactly the fields, and rejoining them with commas
reproduces the row bytes without the terminator. -/
theorem c3_amended (fields : List (List Nat)) (hne : fields ≠ [])
    (hgood : ∀ fl ∈ fields, ∀ b ∈ fl,
      b ≠ 0 ∧ b ≠ lf ∧ b ≠ cr ∧ b ≠ quoteB ∧ b ≠ commaB) :
    (read_row (mkReader (rowOf fields) [])).1 = true ∧
    (read_row (mkReader (rowOf fields) [])).2.row = cellsOf 0 fields ∧
    (cellsOf 0 fields).length = fields.length ∧
    (cellsOf 0 fields).map (cellContent (rowOf fields)) = fields ∧
    joinComma ((cellsOf 0 fields).map (cellContent (rowOf fields))) ++ [lf]
      = rowOf fields := by
  have hparse := try_parse_rowOf fields hne hgood
  have hcontent := cellsOf_content fields (rowOf fields) 0 hne (by simp)
  have hstep : tryParseStep (mkReader (rowOf fields) [])
      = (true, { cur := ⟨rowOf fields, [], 131072⟩,
                 p := (rowOf fields).length, row := cellsOf 0 fields }) := by
    unfold tryParseStep mkReader
    rw [hparse]
  have hrr : read_row (mkReader (rowOf fields) [])
      = (true, { cur := ⟨rowOf fields, [], 131072⟩,
                 p := (rowOf fields).length, row := cellsOf 0 fields }) := by
    unfold read_row
    rw [hstep]
  refine ⟨by rw [hrr], by rw [hrr], cellsOf_length fields 0, hcontent, ?_⟩
  rw [hcontent]
  rfl

/-- Witness for C3 (amended) at the concrete row `a,bc\n`. -/
theorem c3_amended_witness :
    (read_row (mkReader (rowOf [[97], [98, 99]]) [])).1 = true ∧
    (read_row (mkReader (rowOf [[97], [98, 99]]) [])).2.row
      = cellsOf 0 [[97], [98, 99]] ∧
    (cellsOf 0 [[97], [98, 99]]).length = [[97], [98, 99]].length ∧
    (cellsOf 0 [[97], [98, 99]]).map (cellContent (rowOf [[97], [98, 99]]))
      = [[97], [98, 99]] ∧
    joinComma ((cellsOf 0 [[97], [98, 99]]).map
        (cellContent (rowOf [[97], [98, 99]]))) ++ [lf]
      = rowOf [[97], [98, 99]] :=
  c3_amended [[97], [98, 99]] (by decide) (by decide)

/-- C4: the claim says a row that still fails after the one refill is
reported as MalformedInput, distinguishable from EndOfStream.  The code's
`read_row` returns the same bare `false` in both situations: on the
unterminated quoted input `"abc` (with the stream exhausted) and on an
already-exhausted stream the caller receives identical results. -/
theorem c4_conflation :
    (read_row (mkReader [34, 97, 98, 99] [])).1 = false ∧
    (read_row (mkReader [] [])).1 = false := by
  decide

/-- C5: the claim says a row with more than 256 fields yields RowTooWide
and `count ≤ capacity` always holds.  `try_parse` has no capacity check at
all: on the row of 256 commas (257 empty fields) it succeeds and writes 257
cells — in the C code the 257th write lands past the end of
`CsvCursor::cells[256]` and `row_.count` ends at 257 > 256. -/
theorem c5_overflow :
    (try_parse (List.replicate 256 commaB ++ [lf]) 0).map (fun r => r.1.length)
      = some 257 ∧
    256 < 257 := by
  have hrow : rowOf (List.replicate 257 ([] : List Nat))
      = List.replicate 256 commaB ++ [lf] := by
    unfold rowOf
    rw [show (257 : Nat) = 256 + 1 from rfl, joinComma_empties]
  have hparse := try_parse_rowOf (List.replicate 257 [])
    (by
      intro h
      have h2 := congrArg List.length h
      rw [List.length_replicate, List.length_nil] at h2
      exact absurd h2 (by omega))
    (by
      intro fl hfl b hb
      rw [List.eq_of_mem_replicate hfl] at hb
      exact absurd hb (List.not_mem_nil b))
  rw [hrow] at hparse
  refine ⟨?_, by omega⟩
  rw [hparse, Option.map_some']
  dsimp only
  rw [cellsOf_length, List.length_replicate]

/-- C6 counterexample: the claim says `a,b\r\n` produces exactly two Cells.
The code closes the Cell `b` at the CR, steps past the CR into
`cell_start`, which sees the LF, enters `in_unquoted_cell`, and emits a
third, empty Cell before terminating the row: three Cells, not two. -/
theorem c6_counterexample :
    ¬ ((try_parse [97, 44, 98, 13, 10] 0).map (fun r => r.1.length)
        = some 2) := by
  decide

/-- C6 (amended): for the input row `a,b\r\n`, `try_parse` succeeds with
*three* Cells `a`, `b`, `` (the CR acts as the terminator of `b` and the
LF then yields a trailing empty Cell); neither of the first two Cells
contains a CR byte. -/
theorem c6_amended :
    try_parse [97, 44, 98, 13, 10] 0 = some ([(0, 1), (2, 1), (4, 0)], 5) ∧
    (try_parse [97, 44, 98, 13, 10] 0).map
        (fun r => r.1.map (cellContent [97, 44, 98, 13, 10]))
      = some [[97], [98], []] ∧
    cr ∉ [97] ∧ cr ∉ [98] := by
  decide

/-- C7: for the quoted row `"he said ""hi"""\n`, `read_row` produces one
Cell whose raw bytes are `he said ""hi""` (doubled quotes kept verbatim);
and in general, in `in_escape_or_end_of_cell`, a byte other than comma or
LF after a quote resumes `in_quoted_cell` one byte further without closing
the field, so escapes are never unescaped. -/
theorem c7_quoted_verbatim :
    (try_parse [34, 104, 101, 32, 115, 97, 105, 100, 32, 34, 34, 104, 105,
        34, 34, 34, 10] 0 = some ([(1, 14)], 17) ∧
     cellContent [34, 104, 101, 32, 115, 97, 105, 100, 32, 34, 34, 104, 105,
        34, 34, 34, 10] (1, 14)
      = [104, 101, 32, 115, 97, 105, 100, 32, 34, 34, 104, 105, 34, 34]) ∧
    ∀ (w : List Nat) (f cs p : Nat) (acc : List (Nat × Nat)),
      p < w.length → wbyte w p ≠ commaB → wbyte w p ≠ lf →
      tryParseAux w (f + 1) (.escapeOrEnd cs) p acc
        = tryParseAux w f (.inQuoted cs) (p + 1) acc := by
  refine ⟨by decide, ?_⟩
  intro w f cs p acc hp hc hl
  rw [tryParseAux_succ, tpStep_escape w _ cs p acc (by omega), if_neg hc,
    if_neg hl]

/-- Witness for C7's general escape-resume clause, at the doubled quote of
the concrete input. -/
theorem c7_quoted_verbatim_witness :
    tryParseAux [34, 104, 101, 32, 115, 97, 105, 100, 32, 34, 34, 104, 105,
        34, 34, 34, 10] 3 (.escapeOrEnd 1) 10 []
      = tryParseAux [34, 104, 101, 32, 115, 97, 105, 100, 32, 34, 34, 104,
          105, 34, 34, 34, 10] 2 (.inQuoted 1) 11 [] :=
  c7_quoted_verbatim.2 _ 2 1 10 [] (by decide) (by decide) (by decide)

/-- C8: the claim says both scanner forms return the count of leading
non-stop bytes, 0 exactly on a stop byte, capped at the chunk width (16
vectorized / 4 fallback).  The fallback `StringSpanner` does the opposite:
its table marks the *stop* bytes as members and it returns the offset of
the first byte NOT in the table — on `a,` with stop set `,\r\n` it returns
0 although `a` is not a stop byte — and it never caps at 4 (the source's
own TODO admits this): on six commas followed by `a` it returns 6.  The
vectorized form on `a,` returns 1 as claimed. -/
theorem c8_fallback_divergence :
    stringSpannerScan [commaB, cr, lf] [97, commaB] = some 0 ∧
    unquotedStop 97 = false ∧
    stringSpannerScan [commaB, cr, lf] (List.replicate 6 commaB ++ [97])
      = some 6 ∧
    strcspn16 unquotedStop [97, commaB] = 1 := by
  decide

/-- C9: a failed `try_parse` attempt leaves the committed position `p_`
unchanged (only the local scan pointer is discarded); the committed
position moves only on a fully successful row parse, and `committed ≤ end`
is preserved. -/
theorem c9_frame (r : Reader) (h : r.p ≤ r.cur.buf.length) :
    ((tryParseStep r).1 = false → (tryParseStep r).2.p = r.p) ∧
    (tryParseStep r).2.p ≤ (tryParseStep r).2.cur.buf.length := by
  unfold tryParseStep
  cases hp : try_parse r.cur.buf r.p with
  | none => exact ⟨fun _ => rfl, h⟩
  | some res =>
    obtain ⟨cells, next⟩ := res
    refine ⟨fun hf => by simp at hf, ?_⟩
    unfold try_parse at hp
    exact tryParseAux_next_le hp

/-- Witness for C9 at a window `ab` with no row terminator: the attempt
fails and the committed position is unchanged and within bounds. -/
theorem c9_frame_witness :
    (tryParseStep (mkReader [97, 98] [])).2.p = (mkReader [97, 98] []).p ∧
    (tryParseStep (mkReader [97, 98] [])).2.p
      ≤ (tryParseStep (mkReader [97, 98] [])).2.cur.buf.length :=
  ⟨(c9_frame (mkReader [97, 98] []) (by decide)).1 (by decide),
   (c9_frame (mkReader [97, 98] []) (by decide)).2⟩

/-- C10 counterexample: the claim says `equals` returns false whenever the
argument is shorter than the Cell.  For a Cell holding bytes `a\0` and the
argument `a`, `strncmp` stops at the NUL pair and returns 0, so `equals`
returns true although the argument (length 1) is shorter than the Cell
(size 2). -/
theorem c10_counterexample :
    cellEquals [97, 0] [97] = true ∧
    List.length [97] < List.length [97, 0] := by
  decide

/-- C10 (amended): `equals` compares only the Cell's first `size` bytes, so
it returns true whenever the Cell's bytes are a (possibly strict) prefix of
the argument; and it returns false when the argument is shorter than the
Cell *provided the Cell's bytes contain no NUL* (the restriction the
counterexample forces). -/
theorem c10_amended (cell arg : List Nat) (harg : 0 ∉ arg) :
    (cell <+: arg → cellEquals cell arg = true) ∧
    (0 ∉ cell → arg.length < cell.length → cellEquals cell arg = false) := by
  constructor
  · intro hpre
    obtain ⟨t, rfl⟩ := hpre
    have hcell0 : ∀ b ∈ cell, b ≠ 0 := by
      intro b hb hb0
      exact harg (hb0 ▸ List.mem_append_left t hb)
    unfold cellEquals
    rw [strncmpZ_extends cell t hcell0]
    rfl
  · intro hcell hlen
    have hcell0 : ∀ b ∈ cell, b ≠ 0 := by
      intro b hb hb0
      exact hcell (hb0 ▸ hb)
    have := strncmpZ_short arg cell hcell0 hlen
    unfold cellEquals
    exact beq_eq_false_iff_ne.mpr this

/-- Witness for C10 (amended): a Cell `ab` compares equal to the longer
argument `abc`; a NUL-free Cell `cd` compares unequal to the shorter
argument `c`. -/
theorem c10_amended_witness :
    cellEquals [97, 98] [97, 98, 99] = true ∧
    cellEquals [99, 100] [99] = false :=
  ⟨(c10_amended [97, 98] [97, 98, 99] (by decide)).1 (by decide),
   (c10_amended [99, 100] [99] (by decide)).2 (by decide) (by decide)⟩

end Csvmonkey
